import Mathlib

/-!
Shallow embedding of src/app.py (lunar-new-year red pocket scramble game).

Covered source functions: scramble_money (the reward allocator), the answer
parsing of game_logic (rsplit on the delimiter, strip, fallback letter),
the answer evaluation (strip then upper then compare with the stored
secret), and the game_logic state machine itself.

Modelling conventions. Python floats are modelled as rationals; round(x, 2)
is modelled as round-half-to-even applied to x * 100, the Python tie rule.
Randomness is made explicit: each raw uniform sample of the allocator loop,
each non-player guess, the sampled pot and the shuffle permutation are
inputs, constrained by hypotheses to the ranges the source draws from.
Strings are lists of characters; str.upper is modelled on the ASCII range
the program uses. Chat and question generation are opaque collaborators:
their outputs are plain inputs of each step. Display formatting, the
chatbot history and the gradio visibility updates carry no game state and
are omitted; the session state record keeps exactly the four keys the
source stores: status, balance, secret_key, chat_history.
-/

/-- Whitespace characters removed by the Python str.strip default. -/
def isPySpace (c : Char) : Bool :=
  c == ' ' || c == '\t' || c == '\n' || c == '\r' || c == '\x0b' || c == '\x0c'

/-- Model of str.strip: drop whitespace from both ends. -/
def pyStrip (s : List Char) : List Char :=
  ((s.dropWhile isPySpace).reverse.dropWhile isPySpace).reverse

/-- Model of str.upper on the ASCII range used by the program. -/
def pyUpper (s : List Char) : List Char := s.map Char.toUpper

/-- app.py line 142: user_input.strip().upper() compared with the stored
secret_key string. -/
def user_correct (input secret : List Char) : Bool :=
  pyUpper (pyStrip input) == secret

/-- The three-bar delimiter token of the question generator convention. -/
def delim : List Char := ['|', '|', '|']

/-- Model of raw_output.rsplit on the delimiter with maxsplit one, app.py
line 129: the text before and after the last occurrence of the delimiter,
or none when the delimiter is absent. -/
def splitLastDelim : List Char → Option (List Char × List Char)
  | [] => none
  | c :: rest =>
    match splitLastDelim rest with
    | some (b, a) => some (c :: b, a)
    | none =>
      if (c :: rest).take 3 = delim then some ([], (c :: rest).drop 3) else none

/-- Whether the text contains the delimiter token anywhere. -/
def containsDelim : List Char → Bool
  | [] => false
  | c :: rest => decide ((c :: rest).take 3 = delim) || containsDelim rest

/-- app.py line 130: the stored secret is the stripped text after the last
delimiter when a split happened, and the letter A otherwise. -/
def extractSecret (raw : List Char) : List Char :=
  match splitLastDelim raw with
  | some (_, a) => pyStrip a
  | none => ['A']

/-- app.py line 133: the displayed question text is the part of the raw
output before the last delimiter, or the whole raw output when the
delimiter is absent. -/
def questionBlock (raw : List Char) : List Char :=
  match splitLastDelim raw with
  | some (b, _) => b
  | none => raw

/-- Round to an integer with the round-half-to-even tie rule of Python. -/
def roundHalfEven (x : ℚ) : ℤ :=
  if x - ⌊x⌋ < 1/2 then ⌊x⌋
  else if 1/2 < x - ⌊x⌋ then ⌊x⌋ + 1
  else if ⌊x⌋ % 2 = 0 then ⌊x⌋ else ⌊x⌋ + 1

/-- Model of round(x, 2). -/
def round2 (q : ℚ) : ℚ := (roundHalfEven (q * 100) : ℚ) / 100

/-- The share list built by the loop of scramble_money, app.py lines 76 to
82: each raw uniform sample is rounded to cents and subtracted from the
remaining pot, and finally the rounded remainder is appended. The draws
argument lists the raw uniform samples, one per loop iteration. -/
def scrambleShares (remaining : ℚ) : List ℚ → List ℚ
  | [] => [round2 remaining]
  | d :: t => round2 d :: scrambleShares (remaining - round2 d) t

/-- The range constraint the source imposes on each raw uniform sample of
the loop, app.py line 79: the sample at each iteration lies between 0.5 and
remaining divided by the number of winners still unassigned, times 1.3, in
whichever order those two bounds fall, as with random.uniform. -/
def validDraws (remaining : ℚ) : List ℚ → Bool
  | [] => true
  | d :: t =>
    (decide (min (1/2) (remaining / ((t.length + 2 : ℕ) : ℚ) * (13/10)) ≤ d) &&
      decide (d ≤ max (1/2) (remaining / ((t.length + 2 : ℕ) : ℚ) * (13/10)))) &&
      validDraws (remaining - round2 d) t

/-- app.py lines 74 to 84. The shuffle argument models random.shuffle and is
constrained to be a permutation in the theorems. The returned Python dict
built by dict of zip of winners and shares is modelled as the association
list zip, the winners being distinct. -/
def scramble_money (total : ℚ) (winners : List (List Char)) (draws : List ℚ)
    (shuffle : List ℚ → List ℚ) : List (List Char × ℚ) :=
  if winners = [] then [] else winners.zip (shuffle (scrambleShares total draws))

/-- Model of payouts.get with default zero. -/
def dictGet : List (List Char × ℚ) → List Char → ℚ
  | [], _ => 0
  | (k, v) :: t, key => if k = key then v else dictGet t key

/-- The two values the source stores in the status key. -/
inductive Status where
  | IDLE
  | WAITING
  deriving DecidableEq

/-- The session state dict of app.py line 119: status, balance, secret_key
and chat_history. -/
structure GameState where
  status : Status
  balance : ℚ
  secret_key : List Char
  chat_history : List (List Char)

/-- The external and random inputs consumed by one invocation of
game_logic: the raw generated question text, the generated chat text, the
three non-player guesses drawn in roster order, the sampled pot, the raw
uniform samples of the allocator loop, and the shuffle permutation. -/
structure Env where
  raw_output : List Char
  chat_text : List Char
  guesses : List (List Char)
  pot : ℚ
  draws : List ℚ
  shuffle : List ℚ → List ℚ

def youId : List Char := ['Y', 'o', 'u']

def xiaoMing : List Char := ['X', 'i', 'a', 'o', ' ', 'M', 'i', 'n', 'g']

def auntieMay : List Char := ['A', 'u', 'n', 't', 'i', 'e', ' ', 'M', 'a', 'y']

def uncleChen : List Char := ['U', 'n', 'c', 'l', 'e', ' ', 'C', 'h', 'e', 'n']

/-- app.py line 144: the fixed roster of non-player participants. -/
def familyMembers : List (List Char) := [xiaoMing, auntieMay, uncleChen]

/-- The four-letter alphabet non-player guesses are drawn from. -/
def letterChoices : List (List Char) := [['A'], ['B'], ['C'], ['D']]

/-- app.py lines 143 to 150: the user first when correct, then each roster
member whose guess equals the stored secret, in roster order. -/
def winnersOf (input : List Char) (s : GameState) (env : Env) : List (List Char) :=
  (if user_correct input s.secret_key then [youId] else []) ++
    ((familyMembers.zip env.guesses).filter (fun p => p.2 == s.secret_key)).map Prod.fst

/-- app.py line 155: payouts.get of the user key with default zero. -/
def userGain (input : List Char) (env : Env) (s : GameState) : ℚ :=
  dictGet (scramble_money env.pot (winnersOf input s env) env.draws env.shuffle) youId

/-- app.py lines 117 to 164: one invocation of the game engine. The source
branches only on the stored status: the IDLE branch requests a question,
stores the extracted secret and moves to WAITING; the WAITING branch
evaluates the input as an answer, computes winners and payouts, adds the
user share to the balance and moves back to IDLE. Both branches append one
generated chat text to the chat history. -/
def game_logic (user_input : List Char) (env : Env) (s : GameState) : GameState :=
  if s.status = Status.IDLE then
    { status := Status.WAITING
      balance := s.balance
      secret_key := extractSecret env.raw_output
      chat_history := s.chat_history ++ [env.chat_text] }
  else
    { status := Status.IDLE
      balance := s.balance + userGain user_input env s
      secret_key := s.secret_key
      chat_history := s.chat_history ++ [env.chat_text] }

/-- The fresh session state of app.py line 119. -/
def initState : GameState :=
  { status := Status.IDLE, balance := 0, secret_key := [], chat_history := [] }

/-- The constraints the source puts on the random inputs of one invocation:
the pot is sampled from the closed range 8.88 to 38.88 (line 153), exactly
one guess per roster member is drawn from the four-letter alphabet (line
148), the shuffle is a permutation, and, when the invocation will run the
WAITING branch, the allocator consumes one raw uniform sample per winner
beyond the first, each inside the bounds of line 79. -/
def EnvOK (input : List Char) (s : GameState) (env : Env) : Prop :=
  222/25 ≤ env.pot ∧ env.pot ≤ 972/25 ∧
  env.guesses.length = 3 ∧ (∀ g ∈ env.guesses, g ∈ letterChoices) ∧
  (∀ l : List ℚ, (env.shuffle l).Perm l) ∧
  (s.status = Status.WAITING →
    env.draws.length + 1 = max (winnersOf input s env).length 1 ∧
    validDraws env.pot env.draws = true)

/-- Iterated invocations of game_logic over a list of inputs. -/
def runGame : GameState → List (List Char × Env) → GameState
  | s, [] => s
  | s, (i, e) :: t => runGame (game_logic i e s) t

/-- Every step of the trace satisfies the random-input constraints for the
state it runs from. -/
def ValidTrace : GameState → List (List Char × Env) → Prop
  | _, [] => True
  | s, (i, e) :: t => EnvOK i s e ∧ ValidTrace (game_logic i e s) t

lemma roundHalfEven_le (x : ℚ) : (roundHalfEven x : ℚ) ≤ x + 1/2 := by
  have h1 := Int.floor_le x
  have h2 := Int.lt_floor_add_one x
  unfold roundHalfEven
  split_ifs <;> push_cast <;> linarith

lemma le_roundHalfEven (x : ℚ) : x - 1/2 ≤ (roundHalfEven x : ℚ) := by
  have h1 := Int.floor_le x
  have h2 := Int.lt_floor_add_one x
  unfold roundHalfEven
  split_ifs <;> push_cast <;> linarith

lemma round2_le (q : ℚ) : round2 q ≤ q + 1/200 := by
  have h := roundHalfEven_le (q * 100)
  unfold round2
  rw [div_le_iff₀ (by norm_num : (0:ℚ) < 100)]
  linarith

lemma le_round2 (q : ℚ) : q - 1/200 ≤ round2 q := by
  have h := le_roundHalfEven (q * 100)
  unfold round2
  rw [le_div_iff₀ (by norm_num : (0:ℚ) < 100)]
  linarith

lemma round2_nonneg {q : ℚ} (h : 0 ≤ q) : 0 ≤ round2 q := by
  have hf : (0:ℤ) ≤ ⌊q * 100⌋ := Int.floor_nonneg.mpr (by linarith)
  have hf' : (0:ℚ) ≤ (⌊q * 100⌋ : ℚ) := by exact_mod_cast hf
  unfold round2 roundHalfEven
  split_ifs <;> (apply div_nonneg _ (by norm_num : (0:ℚ) ≤ 100)) <;> push_cast <;> linarith

lemma splitLast_none_iff (l : List Char) :
    splitLastDelim l = none ↔ containsDelim l = false := by
  induction l with
  | nil => simp [splitLastDelim, containsDelim]
  | cons c rest ih =>
    cases hrec : splitLastDelim rest with
    | some pair =>
      rcases pair with ⟨b, a⟩
      have h1 : containsDelim rest = true := by
        cases hcd : containsDelim rest
        · have h2 := ih.mpr hcd
          rw [h2] at hrec
          exact Option.noConfusion hrec
        · rfl
      simp [splitLastDelim, containsDelim, hrec, h1]
    | none =>
      have hcd : containsDelim rest = false := ih.mp hrec
      by_cases hif : (c :: rest).take 3 = delim <;>
        simp [splitLastDelim, containsDelim, hrec, hcd, hif]

lemma contains_tail (c : Char) (t : List Char) (h : containsDelim (c :: t) = false) :
    containsDelim t = false := by
  simp [containsDelim] at h
  exact h.2

lemma contains_drop : ∀ (n : ℕ) (l : List Char), containsDelim l = false →
    containsDelim (l.drop n) = false := by
  intro n
  induction n with
  | zero => intro l h; simpa using h
  | succ m ih =>
    intro l h
    cases l with
    | nil => simp [containsDelim]
    | cons c t =>
      rw [List.drop_succ_cons]
      exact ih t (contains_tail c t h)

lemma splitLast_some_spec : ∀ (l b a : List Char), splitLastDelim l = some (b, a) →
    l = b ++ delim ++ a ∧ containsDelim a = false := by
  intro l
  induction l with
  | nil => intro b a h; simp [splitLastDelim] at h
  | cons c rest ih =>
    intro b a h
    cases hrec : splitLastDelim rest with
    | some pair =>
      rcases pair with ⟨b', a'⟩
      simp only [splitLastDelim, hrec, Option.some.injEq, Prod.mk.injEq] at h
      obtain ⟨hb, ha⟩ := h
      subst hb
      subst ha
      obtain ⟨h1, h2⟩ := ih b' a' hrec
      exact ⟨by simp [h1], h2⟩
    | none =>
      simp only [splitLastDelim, hrec] at h
      by_cases hif : (c :: rest).take 3 = delim
      · rw [if_pos hif] at h
        simp only [Option.some.injEq, Prod.mk.injEq] at h
        obtain ⟨hb, ha⟩ := h
        subst hb
        subst ha
        constructor
        · conv_lhs => rw [← List.take_append_drop 3 (c :: rest)]
          rw [hif, List.nil_append]
        · have hrest : containsDelim rest = false := (splitLast_none_iff rest).mp hrec
          have hdrop : (c :: rest).drop 3 = rest.drop 2 := rfl
          rw [hdrop]
          exact contains_drop 2 rest hrest
      · rw [if_neg hif] at h
        exact Option.noConfusion h

lemma scrambleShares_length (ds : List ℚ) : ∀ r, (scrambleShares r ds).length = ds.length + 1 := by
  induction ds with
  | nil => intro r; simp [scrambleShares]
  | cons d t ih => intro r; simp [scrambleShares, ih]

lemma scrambleShares_sum (ds : List ℚ) : ∀ r : ℚ,
    (scrambleShares r ds).sum = (ds.map round2).sum + round2 (r - (ds.map round2).sum) := by
  induction ds with
  | nil => intro r; simp [scrambleShares]
  | cons d t ih =>
    intro r
    simp only [scrambleShares, List.map_cons, List.sum_cons]
    rw [ih (r - round2 d), sub_sub]
    ring

lemma scrambleShares_sum_close (ds : List ℚ) (r : ℚ) :
    |(scrambleShares r ds).sum - r| ≤ 1/200 := by
  rw [scrambleShares_sum]
  have h1 := round2_le (r - (ds.map round2).sum)
  have h2 := le_round2 (r - (ds.map round2).sum)
  rw [abs_le]
  constructor <;> linarith

/-- A sufficient lower bound on the remaining pot, indexed by the number of
raw uniform samples still to be consumed, under which every share stays
non-negative. The value for three remaining samples is the least pot the
game ever passes in, 8.88. -/
def lowBound : ℕ → ℚ
  | 0 => 0
  | 1 => 1
  | 2 => 3
  | _ + 3 => 222/25

lemma lowBound_le_pot : ∀ m : ℕ, lowBound m ≤ 222/25
  | 0 => by norm_num [lowBound]
  | 1 => by norm_num [lowBound]
  | 2 => by norm_num [lowBound]
  | (_ + 3) => by norm_num [lowBound]

lemma lowBound_step (m : ℕ) (hm : m ≤ 2) :
    1 ≤ lowBound (m + 1) ∧ 5 * ((m : ℚ) + 2) / 13 ≤ lowBound (m + 1) ∧
      lowBound m ≤ 7 * lowBound (m + 1) / 20 - 1/200 := by
  rcases m with _ | _ | _ | m
  · refine ⟨by norm_num [lowBound], by norm_num [lowBound], by norm_num [lowBound]⟩
  · refine ⟨by norm_num [lowBound], by norm_num [lowBound], by norm_num [lowBound]⟩
  · refine ⟨by norm_num [lowBound], by norm_num [lowBound], by norm_num [lowBound]⟩
  · exact absurd hm (by omega)

lemma scrambleShares_nonneg : ∀ (ds : List ℚ) (r : ℚ), ds.length ≤ 3 →
    validDraws r ds = true → lowBound ds.length ≤ r →
    ∀ s ∈ scrambleShares r ds, 0 ≤ s := by
  intro ds
  induction ds with
  | nil =>
    intro r _ _ hb s hs
    simp only [scrambleShares, List.mem_singleton] at hs
    subst hs
    have hr : (0:ℚ) ≤ r := by simpa [lowBound] using hb
    exact round2_nonneg hr
  | cons d t ih =>
    intro r hlen hv hb s hs
    simp only [validDraws, Bool.and_eq_true, decide_eq_true_eq] at hv
    obtain ⟨⟨hlo, hhi⟩, hvt⟩ := hv
    have hm2 : t.length ≤ 2 := by simp only [List.length_cons] at hlen; omega
    obtain ⟨hb1, hb2, hb3⟩ := lowBound_step t.length hm2
    have hbr : lowBound (t.length + 1) ≤ r := by
      simpa only [List.length_cons] using hb
    have hr1 : (1:ℚ) ≤ r := le_trans hb1 hbr
    have hr0 : (0:ℚ) ≤ r := by linarith
    have hKk : ((t.length + 2 : ℕ) : ℚ) = (t.length : ℚ) + 2 := by push_cast; ring
    have hc0 : (0:ℚ) ≤ (t.length : ℚ) := Nat.cast_nonneg _
    have hk0 : (0:ℚ) < ((t.length + 2 : ℕ) : ℚ) := by rw [hKk]; linarith
    have hk5 : 5 * ((t.length + 2 : ℕ) : ℚ) / 13 ≤ r := by
      rw [hKk]
      exact le_trans hb2 hbr
    have hhalf : (1/2 : ℚ) ≤ r / ((t.length + 2 : ℕ) : ℚ) * (13/10) := by
      rw [div_mul_eq_mul_div, le_div_iff₀ hk0]
      linarith
    rw [min_eq_left hhalf] at hlo
    rw [max_eq_right hhalf] at hhi
    have hd20 : d ≤ 13 * r / 20 := by
      have h2 : r / ((t.length + 2 : ℕ) : ℚ) * (13/10) ≤ 13 * r / 20 := by
        rw [div_mul_eq_mul_div, div_le_div_iff₀ hk0 (by norm_num : (0:ℚ) < 20)]
        have hks : (0:ℚ) ≤ ((t.length + 2 : ℕ) : ℚ) - 2 := by rw [hKk]; linarith
        nlinarith [mul_nonneg hr0 hks]
      linarith
    have hshare_lo : (0:ℚ) ≤ round2 d := by
      have := le_round2 d
      linarith
    have hshare_hi : round2 d ≤ 13 * r / 20 + 1/200 := by
      have := round2_le d
      linarith
    have hnext : lowBound t.length ≤ r - round2 d := by
      linarith [hb3, hbr]
    simp only [scrambleShares, List.mem_cons] at hs
    rcases hs with hs | hs
    · subst hs
      exact hshare_lo
    · exact ih (r - round2 d) (by omega) hvt hnext s hs

lemma zip_map_snd : ∀ (a : List (List Char)) (b : List ℚ), a.length = b.length →
    (a.zip b).map Prod.snd = b := by
  intro a
  induction a with
  | nil =>
    intro b h
    cases b with
    | nil => simp
    | cons y ys => simp at h
  | cons x xs ih =>
    intro b h
    cases b with
    | nil => simp at h
    | cons y ys =>
      simp only [List.zip_cons_cons, List.map_cons]
      rw [ih ys (by simpa using h)]

lemma snd_mem_of_mem_zip : ∀ (a : List (List Char)) (b : List ℚ) (p : List Char × ℚ),
    p ∈ a.zip b → p.2 ∈ b := by
  intro a
  induction a with
  | nil => intro b p h; simp at h
  | cons x xs ih =>
    intro b p h
    cases b with
    | nil => simp at h
    | cons y ys =>
      simp only [List.zip_cons_cons, List.mem_cons] at h
      rcases h with h | h
      · simp [h]
      · exact List.mem_cons_of_mem _ (ih ys p h)

lemma fst_mem_of_mem_zip : ∀ (a : List (List Char)) (b : List (List Char)) (p : List Char × List Char),
    p ∈ a.zip b → p.1 ∈ a := by
  intro a
  induction a with
  | nil => intro b p h; simp at h
  | cons x xs ih =>
    intro b p h
    cases b with
    | nil => simp at h
    | cons y ys =>
      simp only [List.zip_cons_cons, List.mem_cons] at h
      rcases h with h | h
      · simp [h]
      · exact List.mem_cons_of_mem _ (ih ys p h)

lemma scramble_values_nonneg (p : ℚ) (winners : List (List Char)) (draws : List ℚ)
    (shuffle : List ℚ → List ℚ) (hp : 222/25 ≤ p) (h4 : winners.length ≤ 4)
    (hd : draws.length + 1 = winners.length) (hv : validDraws p draws = true)
    (hs : ∀ l, (shuffle l).Perm l) :
    ∀ v ∈ (scramble_money p winners draws shuffle).map Prod.snd, 0 ≤ v := by
  intro v hvm
  have hne : winners ≠ [] := by
    intro hc
    rw [hc] at hd
    simp at hd
  rw [scramble_money, if_neg hne, List.mem_map] at hvm
  obtain ⟨q, hq, hq2⟩ := hvm
  have h2 : q.2 ∈ shuffle (scrambleShares p draws) := snd_mem_of_mem_zip _ _ _ hq
  have h3 : q.2 ∈ scrambleShares p draws := ((hs _).mem_iff).mp h2
  have hlen3 : draws.length ≤ 3 := by omega
  have hlb : lowBound draws.length ≤ p := le_trans (lowBound_le_pot _) hp
  rw [← hq2]
  exact scrambleShares_nonneg draws p hlen3 hv hlb q.2 h3

lemma dictGet_nonneg : ∀ (l : List (List Char × ℚ)) (k : List Char),
    (∀ v ∈ l.map Prod.snd, 0 ≤ v) → 0 ≤ dictGet l k := by
  intro l
  induction l with
  | nil => intro k _; simp [dictGet]
  | cons a t ih =>
    intro k h
    rcases a with ⟨k1, v1⟩
    simp only [dictGet]
    split_ifs
    · exact h v1 (by simp)
    · exact ih k (fun v hv => h v (by simp [hv]))

lemma dictGet_zip_not_mem : ∀ (ws : List (List Char)) (qs : List ℚ) (k : List Char),
    k ∉ ws → dictGet (ws.zip qs) k = 0 := by
  intro ws
  induction ws with
  | nil => intro qs k _; simp [dictGet]
  | cons w ws ih =>
    intro qs k h
    cases qs with
    | nil => simp [dictGet]
    | cons q qs =>
      have h1 : w ≠ k := by
        intro hc
        exact h (by simp [hc])
      simp only [List.zip_cons_cons, dictGet, if_neg h1]
      exact ih qs k (fun hc => h (List.mem_cons_of_mem _ hc))

lemma winnersOf_length_le (input : List Char) (s : GameState) (env : Env)
    (hg : env.guesses.length = 3) : (winnersOf input s env).length ≤ 4 := by
  unfold winnersOf
  rw [List.length_append, List.length_map]
  have h1 : (if user_correct input s.secret_key then [youId] else []).length ≤ 1 := by
    split_ifs <;> simp
  have h2 : ((familyMembers.zip env.guesses).filter
      (fun p => p.2 == s.secret_key)).length ≤ 3 := by
    calc ((familyMembers.zip env.guesses).filter (fun p => p.2 == s.secret_key)).length
        ≤ (familyMembers.zip env.guesses).length := List.length_filter_le _ _
      _ = min familyMembers.length env.guesses.length := List.length_zip _ _
      _ ≤ 3 := by simp [familyMembers, hg]
  omega

lemma userGain_nonneg (input : List Char) (env : Env) (s : GameState)
    (henv : EnvOK input s env) (hw : s.status = Status.WAITING) :
    0 ≤ userGain input env s := by
  obtain ⟨hp1, _, hg3, _, hsh, hcond⟩ := henv
  obtain ⟨hlen, hvd⟩ := hcond hw
  unfold userGain
  by_cases hwin : winnersOf input s env = []
  · rw [hwin]
    simp [scramble_money, dictGet]
  · have hn : 1 ≤ (winnersOf input s env).length := List.length_pos.mpr hwin
    rw [Nat.max_eq_left hn] at hlen
    exact dictGet_nonneg _ youId
      (scramble_values_nonneg env.pot _ env.draws env.shuffle hp1
        (winnersOf_length_le input s env hg3) hlen hvd hsh)

lemma userGain_zero_incorrect (input : List Char) (env : Env) (s : GameState)
    (h : user_correct input s.secret_key = false) : userGain input env s = 0 := by
  have hyou : youId ∉ winnersOf input s env := by
    intro hmem
    simp only [winnersOf, h, Bool.false_eq_true, if_false, List.nil_append,
      List.mem_map] at hmem
    obtain ⟨q, hq, hq2⟩ := hmem
    have hz := List.mem_of_mem_filter hq
    have hfm := fst_mem_of_mem_zip familyMembers env.guesses q hz
    rw [hq2] at hfm
    exact absurd hfm (by decide)
  unfold userGain
  by_cases hwin : winnersOf input s env = []
  · rw [hwin]
    simp [scramble_money, dictGet]
  · rw [scramble_money, if_neg hwin]
    exact dictGet_zip_not_mem _ _ _ hyou

lemma balance_eq_add (input : List Char) (env : Env) (s : GameState)
    (h : s.status = Status.WAITING) :
    (game_logic input env s).balance = s.balance + userGain input env s := by
  have h' : ¬ s.status = Status.IDLE := by simp [h]
  simp [game_logic, h']

lemma balance_step (input : List Char) (env : Env) (s : GameState)
    (henv : EnvOK input s env) : s.balance ≤ (game_logic input env s).balance := by
  by_cases h : s.status = Status.IDLE
  · simp [game_logic, h]
  · have hw : s.status = Status.WAITING := by
      cases hst : s.status with
      | IDLE => exact absurd hst h
      | WAITING => rfl
    have hnn := userGain_nonneg input env s henv hw
    rw [balance_eq_add input env s hw]
    linarith

lemma run_balance_mono : ∀ (steps : List (List Char × Env)) (s : GameState),
    ValidTrace s steps → s.balance ≤ (runGame s steps).balance := by
  intro steps
  induction steps with
  | nil => intro s _; simp [runGame]
  | cons p t ih =>
    intro s hv
    rcases p with ⟨i, e⟩
    rcases hv with ⟨henv, hvt⟩
    have h1 := balance_step i e s henv
    have h2 := ih (game_logic i e s) hvt
    simp only [runGame]
    linarith

lemma run_balance_nonneg (steps : List (List Char × Env))
    (h : ValidTrace initState steps) : 0 ≤ (runGame initState steps).balance := by
  have hm := run_balance_mono steps initState h
  simpa [initState] using hm

lemma roundHalfEven_intCast (n : ℤ) : roundHalfEven (n : ℚ) = n := by
  unfold roundHalfEven
  rw [Int.floor_intCast, sub_self]
  norm_num

lemma round2_intResult (q : ℚ) (n : ℤ) (h : q * 100 = (n : ℚ)) :
    round2 q = (n : ℚ) / 100 := by
  unfold round2
  rw [h, roundHalfEven_intCast]

/-- Claim C1: for every pot p greater than zero and every list of one to
four distinct winners, the values of the mapping returned by scramble_money
sum to round of p to two decimals within a tolerance of 0.01, for every
admissible sequence of raw uniform samples and every shuffle that is a
permutation. -/
theorem scramble_money_sum_invariant (p : ℚ) (winners : List (List Char))
    (draws : List ℚ) (shuffle : List ℚ → List ℚ)
    (_hp : 0 < p) (_hnd : winners.Nodup)
    (h1 : 1 ≤ winners.length) (_h4 : winners.length ≤ 4)
    (hd : draws.length + 1 = winners.length)
    (_hv : validDraws p draws = true)
    (hs : ∀ l, (shuffle l).Perm l) :
    |((scramble_money p winners draws shuffle).map Prod.snd).sum - round2 p| ≤ 1/100 := by
  have hne : winners ≠ [] := by
    intro hc
    rw [hc] at h1
    simp at h1
  have hperm := hs (scrambleShares p draws)
  have hlenS : winners.length = (shuffle (scrambleShares p draws)).length := by
    rw [hperm.length_eq, scrambleShares_length]
    omega
  rw [scramble_money, if_neg hne, zip_map_snd winners _ hlenS, hperm.sum_eq]
  have hclose := scrambleShares_sum_close draws p
  have ha := round2_le p
  have hb := le_round2 p
  rw [abs_le] at hclose ⊢
  constructor <;> linarith [hclose.1, hclose.2]

theorem scramble_money_sum_invariant_witness :
    validDraws 20 [6, 5] = true ∧
    |((scramble_money 20 [youId, xiaoMing, uncleChen] [6, 5] id).map Prod.snd).sum -
      round2 20| ≤ 1/100 := by
  have h6 : round2 6 = 6 := by
    rw [round2_intResult 6 600 (by norm_num)]
    norm_num
  have h5 : round2 5 = 5 := by
    rw [round2_intResult 5 500 (by norm_num)]
    norm_num
  have hv : validDraws 20 [6, 5] = true := by
    simp only [validDraws, h6, h5, List.length_cons, List.length_nil]
    norm_num [min_def, max_def]
  exact ⟨hv, scramble_money_sum_invariant 20 [youId, xiaoMing, uncleChen] [6, 5] id
    (by norm_num) (by decide) (by decide) (by decide) (by decide) hv
    (fun l => List.Perm.refl l)⟩

/-- Claim C2 counterexample: at pot 0.4 with two winners, the single raw
uniform sample 0.45 lies inside the bounds of line 79 (which are 0.26 and
0.5 there), yet the final remainder share handed to the last winner is
-0.05: scramble_money returns a negative share and performs no clamping. -/
theorem scramble_money_negative_share_cex :
    (0 : ℚ) < 2/5 ∧ validDraws (2/5) [9/20] = true ∧
    (scramble_money (2/5) [['U'], ['V']] [9/20] id).map Prod.snd = [9/20, -(1/20)] ∧
    (-(1/20) : ℚ) < 0 := by
  have h45 : round2 (9/20) = 9/20 := by
    rw [round2_intResult (9/20) 45 (by norm_num)]
    norm_num
  have hneg : round2 (2/5 - 9/20) = -(1/20) := by
    rw [round2_intResult (2/5 - 9/20) (-5) (by norm_num)]
    norm_num
  refine ⟨by norm_num, ?_, ?_, by norm_num⟩
  · simp only [validDraws, h45, List.length_nil]
    norm_num [min_def, max_def]
  · simp [scramble_money, scrambleShares, h45, hneg]

/-- Claim C2 (amended): for pots in the range the game actually samples,
that is p at least 8.88, and at most four winners, every individual share
in the mapping returned by scramble_money is non-negative, including the
final remainder share. For smaller pots the final remainder can be
negative: the code contains no clamping of a negative remainder to zero. -/
theorem scramble_money_nonneg_in_game_range (p : ℚ) (winners : List (List Char))
    (draws : List ℚ) (shuffle : List ℚ → List ℚ)
    (hp : 222/25 ≤ p) (h4 : winners.length ≤ 4)
    (hd : draws.length + 1 = winners.length)
    (hv : validDraws p draws = true) (hs : ∀ l, (shuffle l).Perm l) :
    ((scramble_money p winners draws shuffle).map Prod.snd).all
      (fun v => decide (0 ≤ v)) = true := by
  rw [List.all_eq_true]
  intro v hvm
  rw [decide_eq_true_eq]
  exact scramble_values_nonneg p winners draws shuffle hp h4 hd hv hs v hvm

theorem scramble_money_nonneg_in_game_range_witness :
    validDraws 20 [6, 5] = true ∧
    ((scramble_money 20 [youId, xiaoMing, uncleChen] [6, 5] id).map Prod.snd).all
      (fun v => decide (0 ≤ v)) = true := by
  have h6 : round2 6 = 6 := by
    rw [round2_intResult 6 600 (by norm_num)]
    norm_num
  have h5 : round2 5 = 5 := by
    rw [round2_intResult 5 500 (by norm_num)]
    norm_num
  have hv : validDraws 20 [6, 5] = true := by
    simp only [validDraws, h6, h5, List.length_cons, List.length_nil]
    norm_num [min_def, max_def]
  exact ⟨hv, scramble_money_nonneg_in_game_range 20 [youId, xiaoMing, uncleChen] [6, 5] id
    (by norm_num) (by decide) (by decide) hv (fun l => List.Perm.refl l)⟩

/-- Claim C3: for every pot p greater than zero, scramble_money with the
empty winner list returns the empty mapping and raises no error, whatever
the raw samples and the shuffle are. -/
theorem scramble_money_empty_winners (p : ℚ) (draws : List ℚ)
    (shuffle : List ℚ → List ℚ) (_hp : 0 < p) :
    scramble_money p [] draws shuffle = [] := by
  simp [scramble_money]

theorem scramble_money_empty_winners_witness :
    (0 : ℚ) < 1 ∧ scramble_money 1 [] [] id = [] :=
  ⟨by norm_num, scramble_money_empty_winners 1 [] id (by norm_num)⟩

/-- Claim C4: for every pot p greater than zero and every single winner w,
scramble_money returns exactly the mapping sending w to round of p to two
decimals: the sole winner receives the entire pot. The loop runs zero times
so the raw sample list is empty, and any shuffle that is a permutation
fixes the one-element share list. -/
theorem scramble_money_single_winner (p : ℚ) (w : List Char)
    (shuffle : List ℚ → List ℚ) (_hp : 0 < p)
    (hs : ∀ l, (shuffle l).Perm l) :
    scramble_money p [w] [] shuffle = [(w, round2 p)] := by
  have h1 : shuffle (scrambleShares p []) = [round2 p] := by
    have hperm := hs (scrambleShares p [])
    simp only [scrambleShares] at hperm ⊢
    exact List.perm_singleton.mp hperm
  simp [scramble_money, h1]

theorem scramble_money_single_winner_witness :
    (0 : ℚ) < 20 ∧ scramble_money 20 [['w']] [] id = [(['w'], round2 20)] :=
  ⟨by norm_num,
    scramble_money_single_winner 20 ['w'] id (by norm_num) (fun l => List.Perm.refl l)⟩

/-- Claim C5 counterexample: the evaluation of line 142 uppercases only the
user input, never the stored secret. With stored secret the lowercase
letter b, the input b is judged incorrect, although after trimming and
ignoring letter case the input equals the secret: the claimed equivalence
fails for lowercase stored secrets. -/
theorem answer_case_sensitivity_cex :
    user_correct ['b'] ['b'] = false ∧ pyUpper (pyStrip ['b']) = pyUpper ['b'] := by
  decide

/-- Claim C5 (amended): answer evaluation is total, and for every stored
secret that is unchanged by uppercasing, as the fallback letter A and the
documented A to D alphabet are, the user is judged correct exactly when the
input, after trimming surrounding whitespace and ignoring letter case,
equals the secret; any other input, empty, unknown or malformed, is judged
simply incorrect. In particular the inputs b and B are judged the same way
when the secret is B. -/
theorem user_correct_uppercase_secret_iff (secret input : List Char)
    (h : pyUpper secret = secret) :
    user_correct input secret = true ↔ pyUpper (pyStrip input) = pyUpper secret := by
  unfold user_correct
  rw [beq_iff_eq, h]

theorem user_correct_uppercase_secret_iff_witness :
    pyUpper ['B'] = ['B'] ∧
    (user_correct ['b'] ['B'] = true ↔ pyUpper (pyStrip ['b']) = pyUpper ['B']) :=
  ⟨by decide, user_correct_uppercase_secret_iff ['B'] ['b'] (by decide)⟩

/-- Claim C6: for every raw generated text that does not contain the
delimiter token, the secret extraction of line 130 deterministically
selects the fixed fallback letter A, the same letter on every call with any
delimiter-free input, instead of failing the round. -/
theorem extractSecret_fallback (raw : List Char) (h : containsDelim raw = false) :
    extractSecret raw = ['A'] := by
  have hn : splitLastDelim raw = none := (splitLast_none_iff raw).mpr h
  simp [extractSecret, hn]

theorem extractSecret_fallback_witness :
    containsDelim ['Q', 'u', 'e', 's', 't', 'i', 'o', 'n'] = false ∧
    extractSecret ['Q', 'u', 'e', 's', 't', 'i', 'o', 'n'] = ['A'] :=
  ⟨by decide, extractSecret_fallback ['Q', 'u', 'e', 's', 't', 'i', 'o', 'n'] (by decide)⟩

/-- Claim C10: whenever the raw generated text contains the delimiter, the
rsplit of line 129 splits on the last occurrence: the raw text decomposes
as the block before the final delimiter, the delimiter, and a tail that
contains no further delimiter; the stored secret is the trimmed tail and
the displayed question block is everything before the final occurrence,
earlier delimiter tokens included. -/
theorem splitLastDelim_last_occurrence (raw b a : List Char)
    (h : splitLastDelim raw = some (b, a)) :
    raw = b ++ delim ++ a ∧ containsDelim a = false ∧
    extractSecret raw = pyStrip a ∧ questionBlock raw = b := by
  obtain ⟨h1, h2⟩ := splitLast_some_spec raw b a h
  exact ⟨h1, h2, by simp [extractSecret, h], by simp [questionBlock, h]⟩

theorem splitLastDelim_last_occurrence_witness :
    splitLastDelim ['X', ' ', '|', '|', '|', ' ', 'Y', ' ', '|', '|', '|', ' ', 'B'] =
      some (['X', ' ', '|', '|', '|', ' ', 'Y', ' '], [' ', 'B']) ∧
    (['X', ' ', '|', '|', '|', ' ', 'Y', ' ', '|', '|', '|', ' ', 'B'] =
        ['X', ' ', '|', '|', '|', ' ', 'Y', ' '] ++ delim ++ [' ', 'B'] ∧
      containsDelim [' ', 'B'] = false ∧
      extractSecret ['X', ' ', '|', '|', '|', ' ', 'Y', ' ', '|', '|', '|', ' ', 'B'] =
        pyStrip [' ', 'B'] ∧
      questionBlock ['X', ' ', '|', '|', '|', ' ', 'Y', ' ', '|', '|', '|', ' ', 'B'] =
        ['X', ' ', '|', '|', '|', ' ', 'Y', ' ']) :=
  ⟨by decide, splitLastDelim_last_occurrence _ _ _ (by decide)⟩

def demoEnv1 : Env :=
  { raw_output := ['Q', ' ', '|', '|', '|', ' ', 'B'], chat_text := [],
    guesses := [['A'], ['A'], ['A']], pot := 10, draws := [], shuffle := id }

def demoEnv2 : Env :=
  { raw_output := [], chat_text := [], guesses := [['A'], ['A'], ['A']],
    pot := 10, draws := [], shuffle := id }

def demoTrace : List (List Char × Env) := [([], demoEnv1), (['b'], demoEnv2)]

def demoWaitState : GameState :=
  { status := Status.WAITING, balance := 0, secret_key := ['B'], chat_history := [] }

def demoIdleState : GameState :=
  { status := Status.IDLE, balance := 5, secret_key := ['B'], chat_history := [] }

def demoEnvC8 : Env :=
  { raw_output := ['Q', '2', ' ', '|', '|', '|', ' ', 'C'], chat_text := [],
    guesses := [['A'], ['A'], ['A']], pot := 10, draws := [], shuffle := id }

/-- Claim C7: across every sequence of game_logic invocations from the
initial state with balance zero, under the random-input constraints the
source samples within, the balance is non-negative and monotonically
non-decreasing: every step leaves the balance greater or equal, each
completed answer-evaluation step adds exactly the user payout, the payout
added is non-negative, and it is zero when the user is not a winner. -/
theorem game_balance_monotone_nonneg :
    (∀ (s : GameState) (steps : List (List Char × Env)),
        ValidTrace s steps → s.balance ≤ (runGame s steps).balance) ∧
    (∀ steps : List (List Char × Env),
        ValidTrace initState steps → 0 ≤ (runGame initState steps).balance) ∧
    (∀ (input : List Char) (env : Env) (s : GameState), s.status = Status.WAITING →
        (game_logic input env s).balance = s.balance + userGain input env s) ∧
    (∀ (input : List Char) (env : Env) (s : GameState),
        EnvOK input s env → s.status = Status.WAITING → 0 ≤ userGain input env s) ∧
    (∀ (input : List Char) (env : Env) (s : GameState),
        user_correct input s.secret_key = false → userGain input env s = 0) :=
  ⟨fun s steps h => run_balance_mono steps s h,
    fun steps h => run_balance_nonneg steps h,
    fun input env s h => balance_eq_add input env s h,
    fun input env s henv hw => userGain_nonneg input env s henv hw,
    fun input env s h => userGain_zero_incorrect input env s h⟩

theorem game_balance_monotone_nonneg_witness :
    ValidTrace initState demoTrace ∧ 0 ≤ (runGame initState demoTrace).balance := by
  have henv1 : EnvOK [] initState demoEnv1 :=
    ⟨by norm_num [demoEnv1], by norm_num [demoEnv1], by decide, by decide,
      fun l => List.Perm.refl l, fun h => absurd h (by decide)⟩
  have henv2 : EnvOK ['b'] (game_logic [] demoEnv1 initState) demoEnv2 :=
    ⟨by norm_num [demoEnv2], by norm_num [demoEnv2], by decide, by decide,
      fun l => List.Perm.refl l, fun _ => ⟨by decide, rfl⟩⟩
  have hv : ValidTrace initState demoTrace := ⟨henv1, henv2, trivial⟩
  exact ⟨hv, game_balance_monotone_nonneg.2.1 demoTrace hv⟩

/-- Claim C8 counterexample: with the session in status WAITING storing
secret B, triggering game_logic with the empty input of the start button
does not start a fresh round: the resulting status is IDLE rather than
WAITING and the stored secret is still B rather than the secret C that
extraction from the newly generated raw text would store. -/
theorem start_while_waiting_cex :
    demoWaitState.status = Status.WAITING ∧
    (game_logic [] demoEnvC8 demoWaitState).status = Status.IDLE ∧
    (game_logic [] demoEnvC8 demoWaitState).secret_key = demoWaitState.secret_key ∧
    demoWaitState.secret_key ≠ extractSecret demoEnvC8.raw_output ∧
    ¬ ((game_logic [] demoEnvC8 demoWaitState).status = Status.WAITING ∧
        (game_logic [] demoEnvC8 demoWaitState).secret_key =
          extractSecret demoEnvC8.raw_output) := by
  refine ⟨rfl, rfl, rfl, by decide, ?_⟩
  intro h
  exact absurd h.1 (by decide)

/-- Claim C8 (amended): triggering game_logic while the status is WAITING
does not start a fresh round: the source dispatches on the stored status
alone, so the trigger is processed by the answer-evaluation branch; the
pending round is completed with the trigger input judged as a guess, the
stored secret is left unchanged, the user payout of that evaluation is
added to the balance, and the status returns to IDLE. A fresh question is
only requested on a trigger that arrives while the status is IDLE. -/
theorem waiting_branch_consumes_trigger (input : List Char) (env : Env) (s : GameState)
    (h : s.status = Status.WAITING) :
    (game_logic input env s).status = Status.IDLE ∧
    (game_logic input env s).secret_key = s.secret_key ∧
    (game_logic input env s).balance = s.balance + userGain input env s := by
  have h' : ¬ s.status = Status.IDLE := by simp [h]
  simp [game_logic, h']

theorem waiting_branch_consumes_trigger_witness :
    demoWaitState.status = Status.WAITING ∧
    ((game_logic [] demoEnvC8 demoWaitState).status = Status.IDLE ∧
      (game_logic [] demoEnvC8 demoWaitState).secret_key = demoWaitState.secret_key ∧
      (game_logic [] demoEnvC8 demoWaitState).balance =
        demoWaitState.balance + userGain [] demoEnvC8 demoWaitState) :=
  ⟨rfl, waiting_branch_consumes_trigger [] demoEnvC8 demoWaitState rfl⟩

/-- Claim C9 counterexample: with the session in status IDLE storing secret
B, submitting the answer b is neither rejected nor a no-op: the invocation
runs the question-issuance branch and overwrites the stored secret with the
newly extracted secret C. -/
theorem submit_while_idle_cex :
    demoIdleState.status = Status.IDLE ∧
    (game_logic ['b'] demoEnvC8 demoIdleState).secret_key ≠ demoIdleState.secret_key := by
  exact ⟨rfl, by decide⟩

/-- Claim C9 (amended): a submission arriving while the status is IDLE is
neither rejected nor a no-op: the source dispatches on the stored status
alone, so the invocation runs the question-issuance branch. The balance is
left unchanged, but the stored secret is overwritten with the secret
extracted from the newly generated raw text and the status moves to
WAITING. -/
theorem idle_branch_starts_round (input : List Char) (env : Env) (s : GameState)
    (h : s.status = Status.IDLE) :
    (game_logic input env s).balance = s.balance ∧
    (game_logic input env s).status = Status.WAITING ∧
    (game_logic input env s).secret_key = extractSecret env.raw_output := by
  simp [game_logic, h]

theorem idle_branch_starts_round_witness :
    demoIdleState.status = Status.IDLE ∧
    ((game_logic ['b'] demoEnvC8 demoIdleState).balance = demoIdleState.balance ∧
      (game_logic ['b'] demoEnvC8 demoIdleState).status = Status.WAITING ∧
      (game_logic ['b'] demoEnvC8 demoIdleState).secret_key =
        extractSecret demoEnvC8.raw_output) :=
  ⟨rfl, idle_branch_starts_round ['b'] demoEnvC8 demoIdleState rfl⟩
